import Mathlib

set_option maxHeartbeats 1000000

/-!
Shallow embedding of the FeelingWise core (src-tauri/src/cache.rs and
src-tauri/src/supervisor.rs) and verification of its specification.

Machine integers (`u32`, `i64`, `usize`) are modelled as `Nat`/`Int`, with
explicit `% 2^32` where the SHA-256 code relies on wrap-around.  The SQLite
table `neutralization_cache` is modelled as a list of rows with unique
`content_hash` (it is the PRIMARY KEY); `ORDER BY hit_count ASC, created_at
ASC` is modelled as a stable insertion sort by that lexicographic order.
Side-effecting operations are modelled by explicit state passing; external
effects (health probes, process kill outcomes, HTTP responses) are oracle
parameters.
-/

/-! SHA-256 (the `sha2` crate computation used by `hash_content`), over byte
lists, each byte a `Nat < 256`. -/

def u32mod : Nat := 4294967296

def rotr32 (n x : Nat) : Nat := ((x >>> n) ||| (x <<< (32 - n))) % u32mod

def toBytesBE (n x : Nat) : List Nat :=
  (List.range n).map (fun i => (x >>> (8 * (n - 1 - i))) % 256)

def sha256K : List Nat :=
  [1116352408, 1899447441, 3049323471, 3921009573, 961987163,
   1508970993, 2453635748, 2870763221, 3624381080, 310598401,
   607225278, 1426881987, 1925078388, 2162078206, 2614888103,
   3248222580, 3835390401, 4022224774, 264347078, 604807628,
   770255983, 1249150122, 1555081692, 1996064986, 2554220882,
   2821834349, 2952996808, 3210313671, 3336571891, 3584528711,
   113926993, 338241895, 666307205, 773529912, 1294757372,
   1396182291, 1695183700, 1986661051, 2177026350, 2456956037,
   2730485921, 2820302411, 3259730800, 3345764771, 3516065817,
   3600352804, 4094571909, 275423344, 430227734, 506948616,
   659060556, 883997877, 958139571, 1322822218, 1537002063,
   1747873779, 1955562222, 2024104815, 2227730452, 2361852424,
   2428436474, 2756734187, 3204031479, 3329325298]

/-- SHA-256 padding: append 0x80, zero bytes to 56 mod 64, then the bit
length as 8 big-endian bytes. -/
def sha256Pad (msg : List Nat) : List Nat :=
  msg ++ 128 :: (List.replicate ((119 - msg.length % 64) % 64) 0
    ++ toBytesBE 8 (8 * msg.length))

/-- Split the padded message into 64-byte blocks. -/
def chunks64 : List Nat → List (List Nat)
  | [] => []
  | x :: rest => ((x :: rest).take 64) :: chunks64 ((x :: rest).drop 64)
termination_by l => l.length
decreasing_by simp [List.length_drop]; omega

/-- The 16 initial 32-bit message-schedule words of a block (big-endian). -/
def wordsOfBlock (block : List Nat) : List Nat :=
  (List.range 16).map (fun i =>
    (block.getD (4 * i) 0) <<< 24 ||| (block.getD (4 * i + 1) 0) <<< 16 |||
    (block.getD (4 * i + 2) 0) <<< 8 ||| block.getD (4 * i + 3) 0)

/-- Extended message schedule W. -/
def schedule (ws : List Nat) (i : Nat) : Nat :=
  if _h : i < 16 then ws.getD i 0
  else
    let w15 := schedule ws (i - 15)
    let w2 := schedule ws (i - 2)
    let w16 := schedule ws (i - 16)
    let w7 := schedule ws (i - 7)
    let s0 := rotr32 7 w15 ^^^ rotr32 18 w15 ^^^ (w15 >>> 3)
    let s1 := rotr32 17 w2 ^^^ rotr32 19 w2 ^^^ (w2 >>> 10)
    (w16 + s0 + w7 + s1) % u32mod
termination_by i
decreasing_by all_goals omega

structure Sha256St where
  a : Nat
  b : Nat
  c : Nat
  d : Nat
  e : Nat
  f : Nat
  g : Nat
  h : Nat
deriving Repr, DecidableEq

def sha256InitSt : Sha256St :=
  ⟨1779033703, 3144134277, 1013904242, 2773480762,
   1359893119, 2600822924, 528734635, 1541459225⟩

def sha256Round (ws : List Nat) (st : Sha256St) (i : Nat) : Sha256St :=
  let w := schedule ws i
  let k := sha256K.getD i 0
  let s1 := rotr32 6 st.e ^^^ rotr32 11 st.e ^^^ rotr32 25 st.e
  let ch := (st.e &&& st.f) ^^^ ((st.e ^^^ 4294967295) &&& st.g)
  let temp1 := (st.h + s1 + ch + k + w) % u32mod
  let s0 := rotr32 2 st.a ^^^ rotr32 13 st.a ^^^ rotr32 22 st.a
  let maj := (st.a &&& st.b) ^^^ (st.a &&& st.c) ^^^ (st.b &&& st.c)
  let temp2 := (s0 + maj) % u32mod
  { a := (temp1 + temp2) % u32mod, b := st.a, c := st.b, d := st.c,
    e := (st.d + temp1) % u32mod, f := st.e, g := st.f, h := st.g }

def compressBlock (st : Sha256St) (block : List Nat) : Sha256St :=
  let ws := wordsOfBlock block
  let fin := (List.range 64).foldl (sha256Round ws) st
  { a := (st.a + fin.a) % u32mod, b := (st.b + fin.b) % u32mod,
    c := (st.c + fin.c) % u32mod, d := (st.d + fin.d) % u32mod,
    e := (st.e + fin.e) % u32mod, f := (st.f + fin.f) % u32mod,
    g := (st.g + fin.g) % u32mod, h := (st.h + fin.h) % u32mod }

/-- SHA-256 digest of a byte list: always 32 bytes. -/
def sha256Bytes (msg : List Nat) : List Nat :=
  let st := (chunks64 (sha256Pad msg)).foldl compressBlock sha256InitSt
  ([st.a, st.b, st.c, st.d, st.e, st.f, st.g, st.h]).flatMap (toBytesBE 4)

/-- Lowercase hex digit, as produced by `hex::encode`. -/
def hexDigitChar (n : Nat) : Char :=
  if n < 10 then Char.ofNat (48 + n) else Char.ofNat (87 + n)

def byteToHex (b : Nat) : List Char := [hexDigitChar (b / 16), hexDigitChar (b % 16)]

def hexEncode (bytes : List Nat) : String := String.mk (bytes.flatMap byteToHex)

/-- `content.as_bytes()`: the UTF-8 bytes of the string. -/
def stringToBytes (s : String) : List Nat := s.toUTF8.toList.map (fun b => b.toNat)

/-! The persistent cache (cache.rs). -/

def CACHE_TTL_HOURS : Int := 24

def MAX_CACHE_ENTRIES : Int := 50000

structure CachedNeutralization where
  content_hash : String
  original : String
  neutralized : String
  techniques : List String
  severity : Int
  created_at : Int
  hit_count : Int
deriving Repr, DecidableEq

structure CacheStats where
  total_entries : Int
  cache_hits : Int
  cache_misses : Int
  hit_rate : Rat
deriving Repr, DecidableEq

/-- The `NeutralizationCache` struct plus its SQLite database: `rows` is the
`neutralization_cache` table (unique `content_hash`, it is the primary key),
`stats_hits`/`stats_misses` the persisted `cache_stats` singleton row, and
`hits`/`misses` the in-memory counters. -/
structure NeutralizationCache where
  rows : List CachedNeutralization
  stats_hits : Int
  stats_misses : Int
  hits : Int
  misses : Int
deriving Repr, DecidableEq

def NeutralizationCache.hash_content (content : String) : String :=
  hexEncode (sha256Bytes (stringToBytes content))

/-- The SQL `SELECT ... WHERE content_hash = ?1 AND created_at > ?2`. -/
def cacheLookup (rows : List CachedNeutralization) (h : String) (cutoff : Int) :
    Option CachedNeutralization :=
  rows.find? (fun r => r.content_hash == h && decide (cutoff < r.created_at))

/-- `NeutralizationCache::get`, with `now` (seconds) passed explicitly.
Returns the looked-up entry (pre-increment values) and the updated cache. -/
def NeutralizationCache.get (st : NeutralizationCache) (original : String)
    (now : Int) : Option CachedNeutralization × NeutralizationCache :=
  let content_hash := NeutralizationCache.hash_content original
  let cutoff := now - CACHE_TTL_HOURS * 3600
  match cacheLookup st.rows content_hash cutoff with
  | some cached =>
      (some cached,
        { st with
          rows := st.rows.map (fun r =>
            if r.content_hash == content_hash then
              { r with hit_count := r.hit_count + 1 }
            else r),
          hits := st.hits + 1,
          stats_hits := st.stats_hits + 1 })
  | none =>
      (none, { st with misses := st.misses + 1, stats_misses := st.stats_misses + 1 })

/-- Total order used by `ORDER BY hit_count ASC, created_at ASC`. -/
def rowLe (a b : CachedNeutralization) : Prop :=
  a.hit_count < b.hit_count ∨ (a.hit_count = b.hit_count ∧ a.created_at ≤ b.created_at)

instance : DecidableRel rowLe := fun a b => by
  unfold rowLe
  exact inferInstance

instance : IsTotal CachedNeutralization rowLe :=
  ⟨fun a b => by unfold rowLe; omega⟩

instance : IsTrans CachedNeutralization rowLe :=
  ⟨fun a b c hab hbc => by unfold rowLe at *; omega⟩

/-- `NeutralizationCache::prune_if_needed`: delete expired entries, then if
more than `MAX_CACHE_ENTRIES` remain, delete the excess ordered by ascending
`hit_count` then ascending `created_at`. -/
def NeutralizationCache.prune_if_needed (st : NeutralizationCache) (now : Int) :
    NeutralizationCache :=
  let cutoff := now - CACHE_TTL_HOURS * 3600
  let kept := st.rows.filter (fun r => decide (cutoff ≤ r.created_at))
  let count : Int := kept.length
  if count > MAX_CACHE_ENTRIES then
    let toRemove := count - MAX_CACHE_ENTRIES
    let victims := ((List.insertionSort rowLe kept).take toRemove.toNat).map
      (fun r => r.content_hash)
    { st with rows := kept.filter (fun r => !victims.contains r.content_hash) }
  else
    { st with rows := kept }

/-- `NeutralizationCache::set`: `INSERT OR REPLACE` with fresh `created_at`
and `hit_count = 0`, then prune. -/
def NeutralizationCache.set (st : NeutralizationCache) (original neutralized : String)
    (techniques : List String) (severity : Int) (now : Int) : NeutralizationCache :=
  let content_hash := NeutralizationCache.hash_content original
  let newRow : CachedNeutralization :=
    { content_hash := content_hash, original := original, neutralized := neutralized,
      techniques := techniques, severity := severity, created_at := now, hit_count := 0 }
  let replaced :=
    { st with rows := st.rows.filter (fun r => !(r.content_hash == content_hash)) ++ [newRow] }
  NeutralizationCache.prune_if_needed replaced now

/-- `NeutralizationCache::get_stats`. -/
def NeutralizationCache.get_stats (st : NeutralizationCache) : CacheStats :=
  let total := st.hits + st.misses
  { total_entries := st.rows.length,
    cache_hits := st.hits,
    cache_misses := st.misses,
    hit_rate := if total > 0 then (st.hits : Rat) / (total : Rat) else 0 }

/-- `NeutralizationCache::clear`: `DELETE FROM neutralization_cache` only. -/
def NeutralizationCache.clear (st : NeutralizationCache) : NeutralizationCache :=
  { st with rows := [] }

/-! The in-memory LRU layer (cache.rs, `LruCache`). -/

/-- The `LruCache` struct: `entries` models the `HashMap<String,
(CachedNeutralization, u64)>` as an association list with unique keys;
each element is (key, (value, access counter)). -/
structure LruCache where
  entries : List (String × CachedNeutralization × Nat)
  max_size : Nat
  access_counter : Nat
deriving Repr, DecidableEq

def LruCache.new (max_size : Nat) : LruCache :=
  { entries := [], max_size := max_size, access_counter := 0 }

def LruCache.contains (c : LruCache) (key : String) : Bool :=
  c.entries.any (fun e => e.1 == key)

def LruCache.len (c : LruCache) : Nat := c.entries.length

/-- `LruCache::get`: on a hit bump the access counter and stamp the entry. -/
def LruCache.get (c : LruCache) (key : String) :
    Option CachedNeutralization × LruCache :=
  match c.entries.find? (fun e => e.1 == key) with
  | some e =>
      let n := c.access_counter + 1
      (some e.2.1,
        { c with
          access_counter := n,
          entries := c.entries.map (fun e2 =>
            if e2.1 == key then (e2.1, e2.2.1, n) else e2) })
  | none => (none, c)

/-- One step of `iter().min_by_key(access)`: keep the earlier entry on ties,
as Rust's `min_by_key` does. -/
def minByAccessStep (acc : Option (String × CachedNeutralization × Nat))
    (e : String × CachedNeutralization × Nat) :
    Option (String × CachedNeutralization × Nat) :=
  match acc with
  | none => some e
  | some m => if e.2.2 < m.2.2 then some e else some m

/-- `iter().min_by_key(access)`: first entry with minimal access counter. -/
def minByAccess (l : List (String × CachedNeutralization × Nat)) :
    Option (String × CachedNeutralization × Nat) :=
  l.foldl minByAccessStep none

/-- `LruCache::insert`: at capacity with a new key, evict the entry with the
smallest access counter, then insert (replacing any entry with the same key). -/
def LruCache.insert (c : LruCache) (key : String) (value : CachedNeutralization) :
    LruCache :=
  let n := c.access_counter + 1
  let afterEvict :=
    if c.entries.length ≥ c.max_size && !(c.contains key) then
      match minByAccess c.entries with
      | some m => c.entries.filter (fun e => !(e.1 == m.1))
      | none => c.entries
    else c.entries
  { entries := afterEvict.filter (fun e => !(e.1 == key)) ++ [(key, value, n)],
    max_size := c.max_size,
    access_counter := n }

/-- A sample cache row, used by concrete witnesses. -/
def sampleRow : CachedNeutralization :=
  { content_hash := "", original := "", neutralized := "", techniques := [],
    severity := 0, created_at := 0, hit_count := 0 }

/-- A sample stored row for the content "a" whose `created_at` lies beyond
the 24-hour TTL window at time 0; used by concrete witnesses. -/
def expiredSampleRow : CachedNeutralization :=
  { content_hash := NeutralizationCache.hash_content "a", original := "a",
    neutralized := "b", techniques := [], severity := 0, created_at := -100000,
    hit_count := 0 }

/-! The process supervisor (supervisor.rs). -/

inductive SupervisorState where
  | Starting
  | Running
  | Unhealthy
  | Stopped
  | OllamaNotInstalled
  | ModelMissing
deriving Repr, DecidableEq

inductive FriendlyStatus where
  | Starting (message : String)
  | Running (message : String)
  | NotInstalled (message : String) (download_url : String)
  | ModelMissing (message : String)
  | Error (message : String)
  | Stopped (message : String)
deriving Repr, DecidableEq

def FriendlyStatus.starting : FriendlyStatus := .Starting "Starting up..."

def FriendlyStatus.running : FriendlyStatus := .Running "Protected"

def FriendlyStatus.not_installed : FriendlyStatus :=
  .NotInstalled "Setup required" "https://ollama.ai/download"

def FriendlyStatus.model_missing : FriendlyStatus :=
  .ModelMissing "Downloading AI model..."

def FriendlyStatus.error (user_message : String) : FriendlyStatus :=
  .Error user_message

def FriendlyStatus.stopped : FriendlyStatus := .Stopped "Protection paused"

structure SupervisorConfig where
  max_restart_attempts : Nat
  health_check_interval_ms : Nat
  startup_timeout_ms : Nat
  default_model : String
deriving Repr, DecidableEq

def defaultSupervisorConfig : SupervisorConfig :=
  { max_restart_attempts := 3, health_check_interval_ms := 5000,
    startup_timeout_ms := 30000, default_model := "phi3:mini" }

/-- The supervisor's mutable fields: the owned child handle (`Option<Child>`,
the handle itself abstracted to `Unit`), the state, and the restart counter. -/
structure OllamaSupervisor where
  process : Option Unit
  state : SupervisorState
  restart_count : Nat
deriving Repr, DecidableEq

def OllamaSupervisor.new : OllamaSupervisor :=
  { process := none, state := .Stopped, restart_count := 0 }

/-- `OllamaSupervisor::stop`, with the outcome of `Child::kill` as an oracle.
`process.take()` runs before the kill, so the handle is dropped even when the
kill fails; on kill failure the error propagates with `?` before the state is
assigned. -/
def OllamaSupervisor.stop (s : OllamaSupervisor) (killOk : Bool) :
    Except String Unit × OllamaSupervisor :=
  match s.process with
  | some _ =>
      if killOk then
        (Except.ok (), { s with process := none, state := .Stopped })
      else
        (Except.error "Failed to stop Ollama", { s with process := none })
  | none => (Except.ok (), { s with state := .Stopped })

/-- Environment oracle for `start`: whether the probe at entry succeeds,
whether the binary is found, whether the spawn succeeds, and the outcomes of
the startup health polls. -/
structure StartEnv where
  healthyAtEntry : Bool
  binFound : Bool
  spawnOk : Bool
  pollHealthy : List Bool
deriving Repr

/-- `OllamaSupervisor::start`.  The startup wait polls every 500ms up to
`startup_timeout_ms / 500` attempts; `pollHealthy` lists the poll outcomes. -/
def OllamaSupervisor.start (cfg : SupervisorConfig) (s : OllamaSupervisor)
    (env : StartEnv) : Except String Unit × OllamaSupervisor :=
  if env.healthyAtEntry then
    (Except.ok (), { s with state := .Running })
  else if !env.binFound then
    (Except.error "Ollama is not installed", s)
  else
    let s1 := { s with state := SupervisorState.Starting }
    if !env.spawnOk then
      (Except.error "Failed to start Ollama", s1)
    else
      let s2 := { s1 with process := some () }
      let maxAttempts := cfg.startup_timeout_ms / 500
      if (env.pollHealthy.take maxAttempts).any (fun b => b) then
        (Except.ok (), { s2 with state := .Running, restart_count := 0 })
      else
        (Except.error "Ollama failed to start", { s2 with state := .Unhealthy })

/-- `OllamaSupervisor::restart`: `stop` then `start`, propagating `stop`'s
error. -/
def OllamaSupervisor.restart (cfg : SupervisorConfig) (s : OllamaSupervisor)
    (killOk : Bool) (env : StartEnv) : Except String Unit × OllamaSupervisor :=
  match OllamaSupervisor.stop s killOk with
  | (Except.ok _, s1) => OllamaSupervisor.start cfg s1 env
  | (Except.error e, s1) => (Except.error e, s1)

structure MonitorEnv where
  healthy : Bool
  killOk : Bool
  startEnv : StartEnv
deriving Repr

/-- One iteration of the `start_health_monitor` loop body (after the sleep).
The second component records whether a `restart()` was attempted. -/
def monitorIteration (cfg : SupervisorConfig) (s : OllamaSupervisor)
    (env : MonitorEnv) : OllamaSupervisor × Bool :=
  if s.state = SupervisorState.Stopped ∨ s.state = SupervisorState.OllamaNotInstalled then
    (s, false)
  else if !env.healthy then
    if s.restart_count < cfg.max_restart_attempts then
      let s1 := { s with state := SupervisorState.Unhealthy }
      let s2 := (OllamaSupervisor.restart cfg s1 env.killOk env.startEnv).2
      ({ s2 with restart_count := s2.restart_count + 1 }, true)
    else
      (s, false)
  else
    ({ s with
        restart_count := if s.restart_count > 0 then 0 else s.restart_count,
        state := SupervisorState.Running }, false)

/-- `OllamaSupervisor::reset_restart_count`. -/
def OllamaSupervisor.reset_restart_count (s : OllamaSupervisor) : OllamaSupervisor :=
  { s with restart_count := 0 }

/-- Rust `str::replace` on char lists: replace all non-overlapping
occurrences of `pat`, left to right.  Structural recursion on a fuel bounded
by the list length (each step consumes at least one character when `pat` is
nonempty; the empty pattern is handled by the wrapper). -/
def replaceListAux (pat rep : List Char) : Nat → List Char → List Char
  | _, [] => []
  | 0, s => s
  | fuel + 1, c :: rest =>
    if pat.isPrefixOf (c :: rest) then
      rep ++ replaceListAux pat rep fuel ((c :: rest).drop pat.length)
    else
      c :: replaceListAux pat rep fuel rest

/-- Rust `str::replace` (the only call site has pattern `":mini"`). -/
def strReplace (s pattern rep : String) : String :=
  if pattern.data.isEmpty then s
  else ⟨replaceListAux pattern.data rep.data s.data.length s.data⟩

/-- Rust `str::starts_with` with a string pattern. -/
def strStartsWith (s p : String) : Bool := p.data.isPrefixOf s.data

/-- `OllamaSupervisor::check_model_available`, with the `/api/tags` response
as an oracle: `Except.error` for a transport/parse failure, otherwise the
optional `models` array (names only). -/
def check_model_available (cfg : SupervisorConfig)
    (resp : Except String (Option (List String))) : Except String Bool :=
  match resp with
  | Except.error e => Except.error e
  | Except.ok modelsOpt =>
      let models := modelsOpt.getD []
      let has_model := models.any (fun m =>
        strStartsWith m (strReplace cfg.default_model ":mini" ""))
      Except.ok (has_model || !models.isEmpty)

/-- Environment oracle for `get_friendly_status`: whether the binary is
found, whether the health re-probe succeeds, and the `/api/tags` response. -/
structure StatusEnv where
  installed : Bool
  healthy : Bool
  tagsResp : Except String (Option (List String))
deriving Repr

/-- `OllamaSupervisor::get_friendly_status`. -/
def get_friendly_status (cfg : SupervisorConfig) (s : OllamaSupervisor)
    (env : StatusEnv) : FriendlyStatus :=
  if !env.installed then
    FriendlyStatus.not_installed
  else
    match s.state with
    | SupervisorState.Starting => FriendlyStatus.starting
    | SupervisorState.Running =>
        if env.healthy then
          match check_model_available cfg env.tagsResp with
          | Except.ok true => FriendlyStatus.running
          | Except.ok false => FriendlyStatus.model_missing
          | Except.error _ => FriendlyStatus.running
        else
          FriendlyStatus.error "Connection issue. Restarting..."
    | SupervisorState.Unhealthy =>
        if s.restart_count ≥ cfg.max_restart_attempts then
          FriendlyStatus.error "Please restart the app"
        else
          FriendlyStatus.error "Reconnecting..."
    | SupervisorState.Stopped => FriendlyStatus.stopped
    | SupervisorState.OllamaNotInstalled => FriendlyStatus.not_installed
    | SupervisorState.ModelMissing => FriendlyStatus.model_missing

/-- The i-th sample row: its hash is the string of i letters a, so all
sample rows have pairwise distinct hashes; non-expired at time 0. -/
def mkRow (i : Nat) : CachedNeutralization :=
  { content_hash := String.mk (List.replicate i 'a'), original := "",
    neutralized := "", techniques := [], severity := 0, created_at := 0,
    hit_count := 0 }

/-- The sample rows `mkRow (n-1), ..., mkRow 0`; used by the C4 witness. -/
def mkRows : Nat → List CachedNeutralization
  | 0 => []
  | n + 1 => mkRow n :: mkRows n

/-- A store of 50,001 distinct-hash non-expired rows; used by the C4
witness. -/
def bigStore : NeutralizationCache :=
  { rows := mkRows 50001, stats_hits := 0, stats_misses := 0, hits := 0,
    misses := 0 }

/-! Theorems -/

/-- Claim C1, counterexample: with an owned process and a failing kill,
`stop()` returns an error and leaves the state at `Running` rather than
forcing it to `Stopped` — the `?` on `child.kill()` returns before the
state assignment. -/
theorem c1_stop_counterexample :
    (OllamaSupervisor.stop ⟨some (), SupervisorState.Running, 0⟩ false).1
        = Except.error "Failed to stop Ollama" ∧
    (OllamaSupervisor.stop ⟨some (), SupervisorState.Running, 0⟩ false).2.state
        = SupervisorState.Running ∧
    (OllamaSupervisor.stop ⟨some (), SupervisorState.Running, 0⟩ false).2.state
        ≠ SupervisorState.Stopped := by
  refine ⟨rfl, rfl, ?_⟩
  decide

/-- Claim C1, amended: `stop()` takes the owned process handle (dropping it
even on failure); if no process is owned, or the kill succeeds, it returns
success and sets the state to `Stopped` (so a merely-absent process never
causes a failure); but if the kill itself fails, `stop()` returns an error
and the state is left unchanged rather than forced to `Stopped`. -/
theorem c1_stop_amended (s : OllamaSupervisor) (killOk : Bool) :
    (s.process = none ∨ killOk = true →
      (OllamaSupervisor.stop s killOk).1 = Except.ok () ∧
      (OllamaSupervisor.stop s killOk).2.state = SupervisorState.Stopped ∧
      (OllamaSupervisor.stop s killOk).2.process = none) ∧
    (s.process ≠ none → killOk = false →
      (OllamaSupervisor.stop s killOk).1 = Except.error "Failed to stop Ollama" ∧
      (OllamaSupervisor.stop s killOk).2.state = s.state ∧
      (OllamaSupervisor.stop s killOk).2.process = none) := by
  rcases s with ⟨proc, st, rc⟩
  cases proc <;> cases killOk <;> simp [OllamaSupervisor.stop]

/-- Witness for the amended C1 at a concrete supervisor. -/
theorem c1_stop_witness :
    ((⟨some (), SupervisorState.Running, 0⟩ : OllamaSupervisor).process = none ∨
        true = true) ∧
    (OllamaSupervisor.stop ⟨some (), SupervisorState.Running, 0⟩ true).1
        = Except.ok () ∧
    (OllamaSupervisor.stop ⟨some (), SupervisorState.Running, 0⟩ true).2.state
        = SupervisorState.Stopped ∧
    (OllamaSupervisor.stop ⟨some (), SupervisorState.Running, 0⟩ true).2.process
        = none :=
  ⟨Or.inr rfl,
   (c1_stop_amended ⟨some (), SupervisorState.Running, 0⟩ true).1 (Or.inr rfl)⟩

/-- Claim C2, code refutation: with the default configuration, a healthy
runtime in `Running` state whose model list is `["llama2:7b"]` — so the
default model `phi3:mini` is absent — `check_model_available` returns
`Ok(true)` because of its `|| !models.is_empty()` clause, and
`get_friendly_status` reports `Running`, not `ModelMissing`, contradicting
the function's own doc comment ("Check if the default model is available"). -/
theorem c2_model_missing_code_bug :
    check_model_available defaultSupervisorConfig (Except.ok (some ["llama2:7b"]))
        = Except.ok true ∧
    get_friendly_status defaultSupervisorConfig ⟨none, SupervisorState.Running, 0⟩
        ⟨true, true, Except.ok (some ["llama2:7b"])⟩ = FriendlyStatus.running ∧
    get_friendly_status defaultSupervisorConfig ⟨none, SupervisorState.Running, 0⟩
        ⟨true, true, Except.ok (some ["llama2:7b"])⟩ ≠ FriendlyStatus.model_missing ∧
    defaultSupervisorConfig.default_model ∉ ["llama2:7b"] ∧
    strStartsWith "llama2:7b" (strReplace defaultSupervisorConfig.default_model ":mini" "")
        = false := by
  refine ⟨rfl, rfl, ?_, ?_, ?_⟩ <;> decide

/-- Claim C6: once the restart counter is at the ceiling, a monitor
iteration never attempts a `restart()` (and, when unhealthy and not
intentionally stopped, changes nothing at all); in the `Unhealthy` state at
the ceiling, `get_friendly_status` reports the terminal "Please restart the
app" message, not the transient "Reconnecting..." one; and after
`reset_restart_count()` one healthy iteration returns the state to
`Running` with the counter at 0. -/
theorem c6_restart_ceiling (cfg : SupervisorConfig) (s : OllamaSupervisor)
    (env : MonitorEnv) (senv : StatusEnv) :
    (s.restart_count ≥ cfg.max_restart_attempts →
      (monitorIteration cfg s env).2 = false) ∧
    (s.restart_count ≥ cfg.max_restart_attempts →
      ¬(s.state = SupervisorState.Stopped ∨ s.state = SupervisorState.OllamaNotInstalled) →
      env.healthy = false →
      (monitorIteration cfg s env).1 = s) ∧
    (s.state = SupervisorState.Unhealthy →
      s.restart_count ≥ cfg.max_restart_attempts →
      senv.installed = true →
      get_friendly_status cfg s senv = FriendlyStatus.error "Please restart the app" ∧
      get_friendly_status cfg s senv ≠ FriendlyStatus.error "Reconnecting...") ∧
    (¬(s.state = SupervisorState.Stopped ∨ s.state = SupervisorState.OllamaNotInstalled) →
      env.healthy = true →
      (monitorIteration cfg s.reset_restart_count env).1.state = SupervisorState.Running ∧
      (monitorIteration cfg s.reset_restart_count env).1.restart_count = 0) := by
  refine ⟨?_, ?_, ?_, ?_⟩
  · intro hge
    unfold monitorIteration
    split
    · rfl
    · split
      · split
        · omega
        · rfl
      · rfl
  · intro hge hskip hunh
    unfold monitorIteration
    split
    · rfl
    · split
      · split
        · omega
        · rfl
      · rename_i hhealthy
        rw [hunh] at hhealthy
        simp at hhealthy
  · intro hstate hge hinst
    have h1 : get_friendly_status cfg s senv = FriendlyStatus.error "Please restart the app" := by
      unfold get_friendly_status
      rw [hinst, hstate]
      simp [if_pos hge]
    refine ⟨h1, ?_⟩
    rw [h1]
    decide
  · intro hskip hhealthy
    unfold monitorIteration
    have hst : s.reset_restart_count.state = s.state := rfl
    split
    · rename_i hc
      rw [hst] at hc
      exact absurd hc hskip
    · rw [hhealthy]
      simp [OllamaSupervisor.reset_restart_count]

/-- Witness for C6 at a concrete ceiling-state supervisor. -/
theorem c6_restart_ceiling_witness :
    ((⟨none, SupervisorState.Unhealthy, 3⟩ : OllamaSupervisor).restart_count
        ≥ defaultSupervisorConfig.max_restart_attempts) ∧
    (monitorIteration defaultSupervisorConfig ⟨none, SupervisorState.Unhealthy, 3⟩
        ⟨false, true, ⟨false, false, false, []⟩⟩).2 = false ∧
    (monitorIteration defaultSupervisorConfig ⟨none, SupervisorState.Unhealthy, 3⟩
        ⟨false, true, ⟨false, false, false, []⟩⟩).1 = ⟨none, SupervisorState.Unhealthy, 3⟩ ∧
    get_friendly_status defaultSupervisorConfig ⟨none, SupervisorState.Unhealthy, 3⟩
        ⟨true, false, Except.error "probe failed"⟩
        = FriendlyStatus.error "Please restart the app" ∧
    (monitorIteration defaultSupervisorConfig
        (OllamaSupervisor.reset_restart_count ⟨none, SupervisorState.Unhealthy, 3⟩)
        ⟨true, true, ⟨false, false, false, []⟩⟩).1.state = SupervisorState.Running :=
  ⟨by decide,
   (c6_restart_ceiling defaultSupervisorConfig ⟨none, SupervisorState.Unhealthy, 3⟩
      ⟨false, true, ⟨false, false, false, []⟩⟩
      ⟨true, false, Except.error "probe failed"⟩).1 (by decide),
   ((c6_restart_ceiling defaultSupervisorConfig ⟨none, SupervisorState.Unhealthy, 3⟩
      ⟨false, true, ⟨false, false, false, []⟩⟩
      ⟨true, false, Except.error "probe failed"⟩).2.1 (by decide) (by decide) rfl),
   ((c6_restart_ceiling defaultSupervisorConfig ⟨none, SupervisorState.Unhealthy, 3⟩
      ⟨false, true, ⟨false, false, false, []⟩⟩
      ⟨true, false, Except.error "probe failed"⟩).2.2.1 rfl (by decide) rfl).1,
   ((c6_restart_ceiling defaultSupervisorConfig ⟨none, SupervisorState.Unhealthy, 3⟩
      ⟨true, true, ⟨false, false, false, []⟩⟩
      ⟨true, false, Except.error "probe failed"⟩).2.2.2 (by decide) rfl).1⟩

/-- Claim C9: `clear()` empties the table — `get_stats().total_entries = 0`
afterwards — while leaving the in-memory hit and miss counters (and hence
the reported `cache_hits`/`cache_misses`) exactly unchanged. -/
theorem c9_clear_frame (st : NeutralizationCache) :
    NeutralizationCache.clear st
      = { st with rows := [] } ∧
    (NeutralizationCache.get_stats (NeutralizationCache.clear st)).total_entries = 0 ∧
    (NeutralizationCache.clear st).hits = st.hits ∧
    (NeutralizationCache.clear st).misses = st.misses ∧
    (NeutralizationCache.get_stats (NeutralizationCache.clear st)).cache_hits = st.hits ∧
    (NeutralizationCache.get_stats (NeutralizationCache.clear st)).cache_misses
        = st.misses := by
  simp [NeutralizationCache.clear, NeutralizationCache.get_stats]

/-- Folding `minByAccessStep` from a `some` accumulator yields an entry that
is either the accumulator or a list member, with minimal access counter. -/
theorem minByAccessStep_foldl_spec
    (l : List (String × CachedNeutralization × Nat))
    (m : String × CachedNeutralization × Nat) :
    ∃ r, l.foldl minByAccessStep (some m) = some r ∧ (r = m ∨ r ∈ l) ∧
      r.2.2 ≤ m.2.2 ∧ ∀ e ∈ l, r.2.2 ≤ e.2.2 := by
  induction l generalizing m with
  | nil => exact ⟨m, rfl, Or.inl rfl, le_refl _, by simp⟩
  | cons e rest ih =>
    simp only [List.foldl_cons]
    by_cases h : e.2.2 < m.2.2
    · have hstep : minByAccessStep (some m) e = some e := by simp [minByAccessStep, h]
      rw [hstep]
      obtain ⟨r, hr, hmem, hle, hall⟩ := ih e
      refine ⟨r, hr, Or.inr ?_, le_trans hle (le_of_lt h), ?_⟩
      · rcases hmem with h1 | h1
        · exact h1 ▸ List.mem_cons_self e rest
        · exact List.mem_cons_of_mem e h1
      · intro x hx
        rcases List.mem_cons.mp hx with h1 | h1
        · exact h1 ▸ hle
        · exact hall x h1
    · have hstep : minByAccessStep (some m) e = some m := by simp [minByAccessStep, h]
      rw [hstep]
      obtain ⟨r, hr, hmem, hle, hall⟩ := ih m
      refine ⟨r, hr, ?_, hle, ?_⟩
      · rcases hmem with h1 | h1
        · exact Or.inl h1
        · exact Or.inr (List.mem_cons_of_mem e h1)
      · intro x hx
        rcases List.mem_cons.mp hx with h1 | h1
        · subst h1
          omega
        · exact hall x h1

/-- On a nonempty list, `min_by_key` returns a member whose access counter
is minimal. -/
theorem minByAccess_spec (l : List (String × CachedNeutralization × Nat))
    (hne : l ≠ []) :
    ∃ m, minByAccess l = some m ∧ m ∈ l ∧ ∀ e ∈ l, m.2.2 ≤ e.2.2 := by
  cases l with
  | nil => exact absurd rfl hne
  | cons x rest =>
    obtain ⟨r, hr, hmem, hle, hall⟩ := minByAccessStep_foldl_spec rest x
    refine ⟨r, hr, ?_, ?_⟩
    · rcases hmem with h1 | h1
      · exact h1 ▸ List.mem_cons_self x rest
      · exact List.mem_cons_of_mem x h1
    · intro e he
      rcases List.mem_cons.mp he with h1 | h1
      · exact h1 ▸ hle
      · exact hall e h1

/-- An element of a list that fails the filter predicate makes the filtered
list strictly shorter. -/
theorem length_filter_lt_of_mem_not {α : Type} (l : List α) (p : α → Bool)
    (a : α) (ha : a ∈ l) (hpa : p a = false) :
    (l.filter p).length < l.length := by
  induction l with
  | nil => cases ha
  | cons x rest ih =>
    rcases List.mem_cons.mp ha with h1 | h1
    · subst h1
      rw [List.filter_cons_of_neg (by simp [hpa])]
      have := List.length_filter_le p rest
      simp only [List.length_cons]
      omega
    · by_cases hx : p x
      · rw [List.filter_cons_of_pos hx]
        have := ih h1
        simp only [List.length_cons]
        omega
      · rw [List.filter_cons_of_neg hx]
        have := List.length_filter_le p rest
        simp only [List.length_cons]
        omega

/-- Claim C10: for `max_size ≥ 1`, the invariant `len() ≤ max_size` is
preserved by `get` and by `insert` (insert at capacity first evicts when the
key is new); and the hypothesis is needed — with `max_size = 0` a first
insert yields `len() = 1`. -/
theorem c10_lru_len_invariant :
    (∀ (c : LruCache) (key : String) (value : CachedNeutralization),
      1 ≤ c.max_size → c.len ≤ c.max_size →
      (c.get key).2.len ≤ c.max_size ∧ (c.insert key value).len ≤ c.max_size) ∧
    ((LruCache.new 0).insert "a" sampleRow).len = 1 := by
  constructor
  · intro c key value hsize hlen
    constructor
    · unfold LruCache.get LruCache.len at *
      cases hf : c.entries.find? (fun e => e.1 == key) <;> simp [hf, hlen]
    · unfold LruCache.insert LruCache.len at *
      cases hck : c.contains key
      · by_cases hge : c.entries.length ≥ c.max_size
        · have hne : c.entries ≠ [] := by
            intro h
            rw [h] at hge
            simp at hge
            omega
          obtain ⟨m, hm, hmmem, _⟩ := minByAccess_spec c.entries hne
          have h1 : (c.entries.filter (fun e => !(e.1 == m.1))).length
              < c.entries.length :=
            length_filter_lt_of_mem_not c.entries _ m hmmem (by simp)
          have h2 := List.length_filter_le (fun e => !(e.1 == key))
            (c.entries.filter (fun e => !(e.1 == m.1)))
          simp [hck, hge, hm, -List.filter_filter]
          omega
        · have h2 := List.length_filter_le (fun e => !(e.1 == key)) c.entries
          simp [hck, hge]
          omega
      · obtain ⟨e0, he0mem, he0key⟩ : ∃ e ∈ c.entries, (e.1 == key) = true := by
          simpa [LruCache.contains, List.any_eq_true] using hck
        have h1 : (c.entries.filter (fun e => !(e.1 == key))).length
            < c.entries.length :=
          length_filter_lt_of_mem_not c.entries _ e0 he0mem (by simp [he0key])
        simp [hck]
        omega
  · decide

/-- Witness for the universally quantified part of C10 at a concrete cache. -/
theorem c10_lru_len_invariant_witness :
    1 ≤ (LruCache.new 1).max_size ∧ (LruCache.new 1).len ≤ (LruCache.new 1).max_size ∧
    ((LruCache.new 1).get "a").2.len ≤ (LruCache.new 1).max_size ∧
    ((LruCache.new 1).insert "a" sampleRow).len ≤ (LruCache.new 1).max_size :=
  ⟨by decide, by decide,
   (c10_lru_len_invariant.1 (LruCache.new 1) "a" sampleRow (by decide) (by decide)).1,
   (c10_lru_len_invariant.1 (LruCache.new 1) "a" sampleRow (by decide) (by decide)).2⟩

/-- Claim C8: in a full `LruCache` (`max_size ≥ 1` distinct keys and distinct
access counters), inserting a fresh key evicts exactly the entry with the
smallest access counter — the least-recently-accessed entry in get/insert
access order — and no other entry: every other entry survives, and the new
entry is stamped with the fresh counter. -/
theorem c8_lru_evicts_min_access (c : LruCache) (key : String)
    (value : CachedNeutralization)
    (hkeys : (c.entries.map (fun e => e.1)).Nodup)
    (hacc : (c.entries.map (fun e => e.2.2)).Nodup)
    (hsize : 1 ≤ c.max_size)
    (hfull : c.entries.length = c.max_size)
    (hnew : c.contains key = false) :
    ∃ m, minByAccess c.entries = some m ∧ m ∈ c.entries ∧
      (∀ e ∈ c.entries, e ≠ m → m.2.2 < e.2.2) ∧
      (c.insert key value).entries
        = c.entries.filter (fun e => !(e.1 == m.1))
            ++ [(key, value, c.access_counter + 1)] ∧
      m ∉ (c.insert key value).entries ∧
      (∀ e ∈ c.entries, e ≠ m → e ∈ (c.insert key value).entries) := by
  have hne : c.entries ≠ [] := by
    intro h
    rw [h] at hfull
    simp at hfull
    omega
  obtain ⟨m, hm, hmmem, hmin⟩ := minByAccess_spec c.entries hne
  have hkeyfalse : ∀ e ∈ c.entries, (e.1 == key) = false := by
    intro e he
    by_contra hcon
    rw [Bool.not_eq_false] at hcon
    have : c.contains key = true := by
      unfold LruCache.contains
      rw [List.any_eq_true]
      exact ⟨e, he, hcon⟩
    rw [hnew] at this
    cases this
  have hstrict : ∀ e ∈ c.entries, e ≠ m → m.2.2 < e.2.2 := by
    intro e he hne2
    have hle := hmin e he
    rcases lt_or_eq_of_le hle with h | h
    · exact h
    · exact absurd (List.inj_on_of_nodup_map hacc he hmmem h.symm) hne2
  have h2 : (c.entries.filter (fun e => !(e.1 == m.1))).filter
      (fun e => !(e.1 == key)) = c.entries.filter (fun e => !(e.1 == m.1)) := by
    rw [List.filter_eq_self]
    intro e he
    simp [hkeyfalse e (List.mem_filter.mp he).1]
  have heq : (c.insert key value).entries
      = c.entries.filter (fun e => !(e.1 == m.1))
          ++ [(key, value, c.access_counter + 1)] := by
    unfold LruCache.insert
    simp only [hnew, Bool.not_false, Bool.and_true]
    rw [if_pos (by simp [hfull]), hm, h2]
  refine ⟨m, hm, hmmem, hstrict, heq, ?_, ?_⟩
  · rw [heq]
    intro hmem
    rcases List.mem_append.mp hmem with h | h
    · have := (List.mem_filter.mp h).2
      simp at this
    · rcases List.mem_singleton.mp h with h
      have := hkeyfalse m hmmem
      rw [h] at this
      simp at this
  · intro e he hne2
    rw [heq]
    apply List.mem_append_left
    rw [List.mem_filter]
    refine ⟨he, ?_⟩
    simp only [Bool.not_eq_true', beq_eq_false_iff_ne, ne_eq]
    intro hkeyeq
    exact hne2 (List.inj_on_of_nodup_map hkeys he hmmem hkeyeq)

/-- Witness for C8 at a concrete two-entry cache: "b" has the smaller
access counter and is evicted by inserting "c". -/
theorem c8_lru_evicts_min_access_witness :
    ((⟨[("a", sampleRow, 2), ("b", sampleRow, 1)], 2, 2⟩ : LruCache).entries.map
        (fun e => e.1)).Nodup ∧
    ∃ m, minByAccess (⟨[("a", sampleRow, 2), ("b", sampleRow, 1)], 2, 2⟩ :
        LruCache).entries = some m ∧
      m ∈ (⟨[("a", sampleRow, 2), ("b", sampleRow, 1)], 2, 2⟩ : LruCache).entries ∧
      (∀ e ∈ (⟨[("a", sampleRow, 2), ("b", sampleRow, 1)], 2, 2⟩ :
          LruCache).entries, e ≠ m → m.2.2 < e.2.2) ∧
      ((⟨[("a", sampleRow, 2), ("b", sampleRow, 1)], 2, 2⟩ : LruCache).insert
          "c" sampleRow).entries
        = (⟨[("a", sampleRow, 2), ("b", sampleRow, 1)], 2, 2⟩ :
            LruCache).entries.filter (fun e => !(e.1 == m.1))
            ++ [("c", sampleRow, 3)] ∧
      m ∉ ((⟨[("a", sampleRow, 2), ("b", sampleRow, 1)], 2, 2⟩ : LruCache).insert
          "c" sampleRow).entries ∧
      (∀ e ∈ (⟨[("a", sampleRow, 2), ("b", sampleRow, 1)], 2, 2⟩ :
          LruCache).entries, e ≠ m →
        e ∈ ((⟨[("a", sampleRow, 2), ("b", sampleRow, 1)], 2, 2⟩ :
            LruCache).insert "c" sampleRow).entries) :=
  ⟨by decide,
   c8_lru_evicts_min_access ⟨[("a", sampleRow, 2), ("b", sampleRow, 1)], 2, 2⟩
     "c" sampleRow (by decide) (by decide) (by decide) (by decide) (by decide)⟩

/-- When the table holds fewer than `MAX_CACHE_ENTRIES` rows, `set` replaces
the row for the content's hash and appends the fresh row; only the expiry
filter of the prune runs (the size prune does not fire), and the fresh row
survives it. -/
theorem set_rows_of_small (st : NeutralizationCache) (c r : String)
    (t : List String) (sev now : Int)
    (hlen : (st.rows.length : Int) < MAX_CACHE_ENTRIES) :
    (NeutralizationCache.set st c r t sev now).rows
      = (st.rows.filter
            (fun x => !(x.content_hash == NeutralizationCache.hash_content c))).filter
          (fun x => decide (now - CACHE_TTL_HOURS * 3600 ≤ x.created_at))
        ++ [{ content_hash := NeutralizationCache.hash_content c, original := c,
              neutralized := r, techniques := t, severity := sev,
              created_at := now, hit_count := 0 }] := by
  have hfreshnew : (decide (now - CACHE_TTL_HOURS * 3600 ≤ now)) = true := by
    rw [decide_eq_true_eq]
    unfold CACHE_TTL_HOURS
    omega
  simp only [NeutralizationCache.set, NeutralizationCache.prune_if_needed,
    List.filter_append, List.filter_cons, List.filter_nil, hfreshnew, if_true]
  rw [if_neg]
  have h1 := List.length_filter_le
    (fun x => decide (now - CACHE_TTL_HOURS * 3600 ≤ x.created_at))
    (st.rows.filter
      (fun x => !(x.content_hash == NeutralizationCache.hash_content c)))
  have h2 := List.length_filter_le
    (fun x => !(x.content_hash == NeutralizationCache.hash_content c)) st.rows
  simp only [List.length_append, List.length_cons, List.length_nil]
  revert hlen
  unfold MAX_CACHE_ENTRIES
  omega

/-- Looking up a hash in rows whose prefix all has other hashes finds the
appended fresh row. -/
theorem cacheLookup_append_fresh (A : List CachedNeutralization)
    (row : CachedNeutralization) (hsh : String) (cutoff : Int)
    (hA : ∀ x ∈ A, (x.content_hash == hsh) = false)
    (hrow : (row.content_hash == hsh) = true)
    (hfresh : cutoff < row.created_at) :
    cacheLookup (A ++ [row]) hsh cutoff = some row := by
  unfold cacheLookup
  rw [List.find?_append]
  have hnone : A.find? (fun r => r.content_hash == hsh
      && decide (cutoff < r.created_at)) = none := by
    rw [List.find?_eq_none]
    intro x hx
    simp [hA x hx]
  rw [hnone, Option.none_or]
  exact List.find?_cons_of_pos _ (by simp [hrow, hfresh])

/-- The hit-count `UPDATE` touches only rows with the looked-up hash. -/
theorem map_update_append (A : List CachedNeutralization)
    (row : CachedNeutralization) (hsh : String)
    (hA : ∀ x ∈ A, (x.content_hash == hsh) = false) :
    (A ++ [row]).map (fun x => if x.content_hash == hsh then
        { x with hit_count := x.hit_count + 1 } else x)
      = A ++ [if row.content_hash == hsh then
          { row with hit_count := row.hit_count + 1 } else row] := by
  rw [List.map_append]
  congr 1
  have : A.map (fun x => if x.content_hash == hsh then
      { x with hit_count := x.hit_count + 1 } else x) = A.map id :=
    List.map_congr_left (fun x hx => by simp [hA x hx])
  simpa using this

/-- Unfolding `get` on a hit. -/
theorem get_of_lookup_some (st : NeutralizationCache) (c : String) (now : Int)
    (row : CachedNeutralization)
    (hl : cacheLookup st.rows (NeutralizationCache.hash_content c)
        (now - CACHE_TTL_HOURS * 3600) = some row) :
    NeutralizationCache.get st c now
      = (some row,
         { st with
           rows := st.rows.map (fun x =>
             if x.content_hash == NeutralizationCache.hash_content c then
               { x with hit_count := x.hit_count + 1 }
             else x),
           hits := st.hits + 1,
           stats_hits := st.stats_hits + 1 }) := by
  simp only [NeutralizationCache.get, hl]

/-- Unfolding `get` on a miss. -/
theorem get_of_lookup_none (st : NeutralizationCache) (c : String) (now : Int)
    (hl : cacheLookup st.rows (NeutralizationCache.hash_content c)
        (now - CACHE_TTL_HOURS * 3600) = none) :
    NeutralizationCache.get st c now
      = (none,
         { st with
           misses := st.misses + 1,
           stats_misses := st.stats_misses + 1 }) := by
  simp only [NeutralizationCache.get, hl]

/-- The first component of `get` on a hit. -/
theorem get_fst_of_lookup_some (st : NeutralizationCache) (c : String)
    (now : Int) (row : CachedNeutralization)
    (hl : cacheLookup st.rows (NeutralizationCache.hash_content c)
        (now - CACHE_TTL_HOURS * 3600) = some row) :
    (NeutralizationCache.get st c now).1 = some row := by
  simp only [NeutralizationCache.get, hl]

/-- The rows after `get` on a hit: the hit-count `UPDATE` over all rows. -/
theorem get_rows_of_lookup_some (st : NeutralizationCache) (c : String)
    (now : Int) (row : CachedNeutralization)
    (hl : cacheLookup st.rows (NeutralizationCache.hash_content c)
        (now - CACHE_TTL_HOURS * 3600) = some row) :
    (NeutralizationCache.get st c now).2.rows
      = st.rows.map (fun x =>
          if x.content_hash == NeutralizationCache.hash_content c then
            { x with hit_count := x.hit_count + 1 }
          else x) := by
  simp only [NeutralizationCache.get, hl]

/-- Claim C3: a successful `set(c, r, t, s)` (here: into a table below the
size ceiling, so pruning cannot evict the fresh row) immediately followed by
`get(c)` returns an entry with result `r`, techniques `t`, severity `s` and
`hit_count = 0`; a second `get(c)` then returns the entry with
`hit_count = 1` — each within-TTL read increments the stored counter and
returns the pre-increment value. -/
theorem c3_set_then_get (st : NeutralizationCache) (c r : String)
    (t : List String) (sev now : Int)
    (hlen : (st.rows.length : Int) < MAX_CACHE_ENTRIES) :
    ∃ e1 e2,
      (NeutralizationCache.get (NeutralizationCache.set st c r t sev now) c now).1
          = some e1 ∧
      e1.neutralized = r ∧ e1.techniques = t ∧ e1.severity = sev ∧
      e1.hit_count = 0 ∧
      (NeutralizationCache.get
        (NeutralizationCache.get (NeutralizationCache.set st c r t sev now) c now).2
        c now).1 = some e2 ∧
      e2.neutralized = r ∧ e2.techniques = t ∧ e2.severity = sev ∧
      e2.hit_count = 1 := by
  have hrows := set_rows_of_small st c r t sev now hlen
  have hAprop : ∀ x ∈ (st.rows.filter
        (fun x => !(x.content_hash == NeutralizationCache.hash_content c))).filter
      (fun x => decide (now - CACHE_TTL_HOURS * 3600 ≤ x.created_at)),
      (x.content_hash == NeutralizationCache.hash_content c) = false := by
    intro x hx
    have hx1 := (List.mem_filter.mp hx).1
    have hx2 := (List.mem_filter.mp hx1).2
    simpa using hx2
  have hfresh : now - CACHE_TTL_HOURS * 3600 < now := by
    unfold CACHE_TTL_HOURS
    omega
  have hl1 : cacheLookup (NeutralizationCache.set st c r t sev now).rows
      (NeutralizationCache.hash_content c) (now - CACHE_TTL_HOURS * 3600)
      = some { content_hash := NeutralizationCache.hash_content c, original := c,
               neutralized := r, techniques := t, severity := sev,
               created_at := now, hit_count := 0 } := by
    rw [hrows]
    exact cacheLookup_append_fresh _ _ _ _ hAprop (by simp) hfresh
  have hrows2 : (NeutralizationCache.get (NeutralizationCache.set st c r t sev now)
        c now).2.rows
      = (st.rows.filter
            (fun x => !(x.content_hash == NeutralizationCache.hash_content c))).filter
          (fun x => decide (now - CACHE_TTL_HOURS * 3600 ≤ x.created_at))
        ++ [{ content_hash := NeutralizationCache.hash_content c, original := c,
              neutralized := r, techniques := t, severity := sev,
              created_at := now, hit_count := 1 }] := by
    rw [get_rows_of_lookup_some _ c now _ hl1, hrows, map_update_append _ _ _ hAprop]
    simp
  have hl2 : cacheLookup (NeutralizationCache.get
        (NeutralizationCache.set st c r t sev now) c now).2.rows
      (NeutralizationCache.hash_content c) (now - CACHE_TTL_HOURS * 3600)
      = some { content_hash := NeutralizationCache.hash_content c, original := c,
               neutralized := r, techniques := t, severity := sev,
               created_at := now, hit_count := 1 } := by
    rw [hrows2]
    exact cacheLookup_append_fresh _ _ _ _ hAprop (by simp) hfresh
  exact ⟨_, _, get_fst_of_lookup_some _ c now _ hl1, rfl, rfl, rfl, rfl,
         get_fst_of_lookup_some _ c now _ hl2, rfl, rfl, rfl, rfl⟩

/-- Witness for C3 starting from the empty cache. -/
theorem c3_set_then_get_witness :
    (((⟨[], 0, 0, 0, 0⟩ : NeutralizationCache).rows.length : Int)
        < MAX_CACHE_ENTRIES) ∧
    ∃ e1 e2,
      (NeutralizationCache.get
        (NeutralizationCache.set ⟨[], 0, 0, 0, 0⟩ "a" "b" ["x"] 5 0) "a" 0).1
          = some e1 ∧
      e1.neutralized = "b" ∧ e1.techniques = ["x"] ∧ e1.severity = 5 ∧
      e1.hit_count = 0 ∧
      (NeutralizationCache.get
        (NeutralizationCache.get
          (NeutralizationCache.set ⟨[], 0, 0, 0, 0⟩ "a" "b" ["x"] 5 0) "a" 0).2
        "a" 0).1 = some e2 ∧
      e2.neutralized = "b" ∧ e2.techniques = ["x"] ∧ e2.severity = 5 ∧
      e2.hit_count = 1 :=
  ⟨by decide, c3_set_then_get ⟨[], 0, 0, 0, 0⟩ "a" "b" ["x"] 5 0 (by decide)⟩

/-- Claim C5: if every stored row for the content's hash is older than the
24-hour TTL window (and such a row is present), `get` returns nothing and
only bumps the miss counters — exactly as for an absent key: the rows (and
in particular the expired row and its `hit_count`) are untouched, and no
deletion happens. -/
theorem c5_expired_entry_miss (st : NeutralizationCache) (c : String) (now : Int)
    (hpresent : ∃ x ∈ st.rows, x.content_hash = NeutralizationCache.hash_content c)
    (hexpired : ∀ x ∈ st.rows,
      x.content_hash = NeutralizationCache.hash_content c →
      x.created_at ≤ now - CACHE_TTL_HOURS * 3600) :
    NeutralizationCache.get st c now
      = (none,
         { st with
           misses := st.misses + 1,
           stats_misses := st.stats_misses + 1 }) ∧
    (NeutralizationCache.get st c now).2.rows = st.rows ∧
    (NeutralizationCache.get st c now).2.hits = st.hits := by
  have hnone : cacheLookup st.rows (NeutralizationCache.hash_content c)
      (now - CACHE_TTL_HOURS * 3600) = none := by
    unfold cacheLookup
    rw [List.find?_eq_none]
    intro x hx hpx
    rw [Bool.and_eq_true] at hpx
    obtain ⟨h1, h2⟩ := hpx
    have hxeq : x.content_hash = NeutralizationCache.hash_content c := eq_of_beq h1
    have h3 := hexpired x hx hxeq
    rw [decide_eq_true_eq] at h2
    omega
  have hmain := get_of_lookup_none st c now hnone
  exact ⟨hmain, by rw [hmain], by rw [hmain]⟩

/-- Witness for C5 at a one-row cache holding an expired entry for "a". -/
theorem c5_expired_entry_miss_witness :
    (∃ x ∈ (⟨[expiredSampleRow], 0, 0, 0, 0⟩ : NeutralizationCache).rows,
      x.content_hash = NeutralizationCache.hash_content "a") ∧
    NeutralizationCache.get ⟨[expiredSampleRow], 0, 0, 0, 0⟩ "a" 0
      = (none,
         { (⟨[expiredSampleRow], 0, 0, 0, 0⟩ : NeutralizationCache) with
           misses := (⟨[expiredSampleRow], 0, 0, 0, 0⟩ : NeutralizationCache).misses + 1,
           stats_misses :=
             (⟨[expiredSampleRow], 0, 0, 0, 0⟩ : NeutralizationCache).stats_misses + 1 }) ∧
    (NeutralizationCache.get ⟨[expiredSampleRow], 0, 0, 0, 0⟩ "a" 0).2.rows
      = [expiredSampleRow] :=
  have hpresent : ∃ x ∈ (⟨[expiredSampleRow], 0, 0, 0, 0⟩ : NeutralizationCache).rows,
      x.content_hash = NeutralizationCache.hash_content "a" :=
    ⟨expiredSampleRow, List.mem_singleton_self _, rfl⟩
  have hexp : ∀ x ∈ (⟨[expiredSampleRow], 0, 0, 0, 0⟩ : NeutralizationCache).rows,
      x.content_hash = NeutralizationCache.hash_content "a" →
      x.created_at ≤ 0 - CACHE_TTL_HOURS * 3600 := by
    intro x hx _h
    rw [List.mem_singleton] at hx
    subst hx
    decide
  have h := c5_expired_entry_miss ⟨[expiredSampleRow], 0, 0, 0, 0⟩ "a" 0 hpresent hexp
  ⟨hpresent, h.1, h.2.1⟩

theorem toBytesBE_length (n x : Nat) : (toBytesBE n x).length = n := by
  simp [toBytesBE]

/-- The SHA-256 digest always has exactly 32 bytes. -/
theorem sha256Bytes_length (msg : List Nat) : (sha256Bytes msg).length = 32 := by
  simp [sha256Bytes, toBytesBE_length]

theorem hexEncode_length (bytes : List Nat) :
    (hexEncode bytes).length = 2 * bytes.length := by
  show (bytes.flatMap byteToHex).length = 2 * bytes.length
  induction bytes with
  | nil => rfl
  | cons b rest ih =>
    rw [List.flatMap_cons, List.length_append, ih]
    simp [byteToHex]
    omega

/-- `hash_content` always returns a 64-character hex string. -/
theorem hash_content_length (c : String) :
    (NeutralizationCache.hash_content c).length = 64 := by
  unfold NeutralizationCache.hash_content
  rw [hexEncode_length, sha256Bytes_length]

theorem string_eq_of_data_eq {s t : String} (h : s.data = t.data) : s = t := by
  cases s
  cases t
  exact congrArg String.mk h

/-- Claim C7, counterexample: `hash(c1) == hash(c2) ↔ c1 == c2` cannot hold
as stated — the digest is 64 characters for every input, so by the
pigeonhole principle over the infinite family of inputs `'a'^n` there exist
two distinct contents with equal SHA-256 hex digests (no concrete collision
is computable; this proves the negation of the iff). -/
theorem c7_hash_injective_counterexample :
    ¬ (∀ c1 c2 : String,
        NeutralizationCache.hash_content c1 = NeutralizationCache.hash_content c2
          ↔ c1 = c2) := by
  intro hiff
  haveI hcharfin : Finite Char := by
    apply Finite.of_injective
      (fun c : Char => (⟨c.val.toNat, by
        have h := c.valid
        rcases h with h | h
        · omega
        · omega⟩ : Fin 1114112))
    intro a b h
    have hval : a.toNat = b.toNat := by
      show a.val.toNat = b.val.toNat
      have h2 := congrArg Fin.val h
      simpa using h2
    have h3 := congrArg Char.ofNat hval
    rwa [Char.ofNat_toNat, Char.ofNat_toNat] at h3
  haveI hfin : Finite ↥{l : List Char | l.length = 64} :=
    (List.finite_length_eq Char 64).to_subtype
  obtain ⟨n, m, hne, heq⟩ := Finite.exists_ne_map_eq_of_infinite
    (fun n : ℕ => (⟨(NeutralizationCache.hash_content
        (String.mk (List.replicate n 'a'))).data,
      hash_content_length (String.mk (List.replicate n 'a'))⟩ :
        ↥{l : List Char | l.length = 64}))
  have hdata := congrArg Subtype.val heq
  have hhash : NeutralizationCache.hash_content (String.mk (List.replicate n 'a'))
      = NeutralizationCache.hash_content (String.mk (List.replicate m 'a')) :=
    string_eq_of_data_eq hdata
  have heqstr := (hiff _ _).mp hhash
  have hlen : (List.replicate n 'a').length = (List.replicate m 'a').length :=
    congrArg String.length heqstr
  have : n = m := by simpa using hlen
  exact hne this

/-- Claim C7, amended: `hash_content` is a pure function — equal contents
always yield equal digests — and the digest always has the fixed length of
64 hex characters; the converse (collision-freedom, the "only if"
direction) remains a cryptographic assumption and is false in the
mathematical sense by the pigeonhole principle. -/
theorem c7_hash_deterministic_fixed_length (c1 c2 : String) :
    (NeutralizationCache.hash_content c1).length = 64 ∧
    (c1 = c2 →
      NeutralizationCache.hash_content c1 = NeutralizationCache.hash_content c2) :=
  ⟨hash_content_length c1, fun h => h ▸ rfl⟩

/-- Witness for the amended C7 at a concrete content. -/
theorem c7_hash_deterministic_witness :
    ("a" = "a") ∧
    NeutralizationCache.hash_content "a" = NeutralizationCache.hash_content "a" :=
  ⟨rfl, (c7_hash_deterministic_fixed_length "a" "a").2 rfl⟩

/-- With pairwise-distinct hashes, removing the rows with one given hash
removes at most one row. -/
theorem length_le_filter_ne_hash_add_one (l : List CachedNeutralization)
    (h : String) (hn : (l.map (fun x => x.content_hash)).Nodup) :
    l.length ≤ (l.filter (fun x => !(x.content_hash == h))).length + 1 := by
  induction l with
  | nil => simp
  | cons a rest ih =>
    rw [List.map_cons, List.nodup_cons] at hn
    obtain ⟨hna, hnr⟩ := hn
    by_cases hah : (a.content_hash == h) = true
    · rw [List.filter_cons_of_neg (by simp [hah])]
      have hrest : rest.filter (fun x => !(x.content_hash == h)) = rest := by
        rw [List.filter_eq_self]
        intro x hx
        have hne : x.content_hash ≠ h := by
          intro hxh
          apply hna
          have hae : a.content_hash = h := eq_of_beq hah
          rw [hae, ← hxh]
          exact List.mem_map_of_mem _ hx
        simp only [Bool.not_eq_true', beq_eq_false_iff_ne, ne_eq]
        exact hne
      rw [hrest]
      simp
    · rw [List.filter_cons_of_pos (by simp [hah])]
      have hih := ih hnr
      simp only [List.length_cons]
      omega

/-- Splitting a filter that removes exactly a set of victim hashes. -/
theorem filter_split (l1 l2 : List CachedNeutralization) (victims : List String)
    (h1 : ∀ x ∈ l1, x.content_hash ∈ victims)
    (h2 : ∀ x ∈ l2, x.content_hash ∉ victims) :
    (l1 ++ l2).filter (fun x => !(victims.contains x.content_hash)) = l2 := by
  rw [List.filter_append]
  rw [List.filter_eq_nil_iff.mpr (fun x hx => by simp [h1 x hx]),
    List.filter_eq_self.mpr (fun x hx => by simp [h2 x hx]), List.nil_append]

/-- Filtering out the hashes of the first `t` entries of the sort leaves, up
to permutation, exactly the remaining entries of the sort. -/
theorem filter_not_victims_perm (rows : List CachedNeutralization) (t : Nat)
    (hnd : (rows.map (fun x => x.content_hash)).Nodup) :
    List.Perm
      (rows.filter (fun x =>
        !((((List.insertionSort rowLe rows).take t).map
            (fun y => y.content_hash)).contains x.content_hash)))
      ((List.insertionSort rowLe rows).drop t) := by
  have hperm := List.perm_insertionSort rowLe rows
  have hnd2 : ((List.insertionSort rowLe rows).map
      (fun x => x.content_hash)).Nodup := ((hperm.map _).nodup_iff).mpr hnd
  have hsplitmap : (List.insertionSort rowLe rows).map (fun x => x.content_hash)
      = ((List.insertionSort rowLe rows).take t).map (fun x => x.content_hash)
        ++ ((List.insertionSort rowLe rows).drop t).map
            (fun x => x.content_hash) := by
    rw [← List.map_append, List.take_append_drop]
  rw [hsplitmap] at hnd2
  have hdisj := (List.nodup_append.mp hnd2).2.2
  have h1 : List.Perm
      (rows.filter (fun x =>
        !((((List.insertionSort rowLe rows).take t).map
            (fun y => y.content_hash)).contains x.content_hash)))
      ((List.insertionSort rowLe rows).filter (fun x =>
        !((((List.insertionSort rowLe rows).take t).map
            (fun y => y.content_hash)).contains x.content_hash))) :=
    (hperm.filter _).symm
  have hcongr : (List.insertionSort rowLe rows).filter (fun x =>
        !((((List.insertionSort rowLe rows).take t).map
            (fun y => y.content_hash)).contains x.content_hash))
      = (((List.insertionSort rowLe rows).take t)
          ++ ((List.insertionSort rowLe rows).drop t)).filter (fun x =>
        !((((List.insertionSort rowLe rows).take t).map
            (fun y => y.content_hash)).contains x.content_hash)) := by
    rw [List.take_append_drop]
  have hsplit : (((List.insertionSort rowLe rows).take t)
          ++ ((List.insertionSort rowLe rows).drop t)).filter (fun x =>
        !((((List.insertionSort rowLe rows).take t).map
            (fun y => y.content_hash)).contains x.content_hash))
      = (List.insertionSort rowLe rows).drop t := by
    apply filter_split
    · intro x hx
      exact List.mem_map_of_mem _ hx
    · intro x hx
      exact fun hcon => hdisj hcon (List.mem_map_of_mem _ hx)
  exact h1.trans (by rw [hcongr, hsplit])

/-- The size prune on a table of non-expired rows with distinct hashes and
more than `MAX_CACHE_ENTRIES` rows: exactly the excess is deleted, the
victims being minimal in the (`hit_count`, `created_at`) lexicographic
order. -/
theorem prune_spec (st : NeutralizationCache) (now : Int)
    (hfr : ∀ x ∈ st.rows, now - CACHE_TTL_HOURS * 3600 ≤ x.created_at)
    (hnd : (st.rows.map (fun x => x.content_hash)).Nodup)
    (hlen : (st.rows.length : Int) > MAX_CACHE_ENTRIES) :
    ((NeutralizationCache.prune_if_needed st now).rows.length : Int)
        = MAX_CACHE_ENTRIES ∧
    ∀ d ∈ st.rows, d ∉ (NeutralizationCache.prune_if_needed st now).rows →
      ∀ k ∈ (NeutralizationCache.prune_if_needed st now).rows, rowLe d k := by
  have hkept : st.rows.filter
      (fun r => decide (now - CACHE_TTL_HOURS * 3600 ≤ r.created_at)) = st.rows :=
    List.filter_eq_self.mpr (fun x hx => by simp [hfr x hx])
  have hres : (NeutralizationCache.prune_if_needed st now).rows
      = st.rows.filter (fun x =>
          !((((List.insertionSort rowLe st.rows).take
              (((st.rows.length : Int) - MAX_CACHE_ENTRIES).toNat)).map
            (fun y => y.content_hash)).contains x.content_hash)) := by
    simp only [NeutralizationCache.prune_if_needed, hkept]
    rw [if_pos hlen]
  have hpermfilter := filter_not_victims_perm st.rows
    (((st.rows.length : Int) - MAX_CACHE_ENTRIES).toNat) hnd
  constructor
  · rw [hres]
    have hlen2 := hpermfilter.length_eq
    rw [hlen2, List.length_drop, List.length_insertionSort]
    revert hlen
    unfold MAX_CACHE_ENTRIES
    omega
  · intro d hd hdnot k hk
    rw [hres] at hdnot hk
    have hkdrop := hpermfilter.mem_iff.mp hk
    have hddrop : d ∉ (List.insertionSort rowLe st.rows).drop
        (((st.rows.length : Int) - MAX_CACHE_ENTRIES).toNat) := by
      intro hcon
      exact hdnot (hpermfilter.mem_iff.mpr hcon)
    have hdsort : d ∈ List.insertionSort rowLe st.rows :=
      (List.perm_insertionSort rowLe st.rows).mem_iff.mpr hd
    have hdapp : d ∈ (List.insertionSort rowLe st.rows).take
          (((st.rows.length : Int) - MAX_CACHE_ENTRIES).toNat)
        ++ (List.insertionSort rowLe st.rows).drop
          (((st.rows.length : Int) - MAX_CACHE_ENTRIES).toNat) := by
      rw [List.take_append_drop]
      exact hdsort
    have hdtake : d ∈ (List.insertionSort rowLe st.rows).take
        (((st.rows.length : Int) - MAX_CACHE_ENTRIES).toNat) := by
      rcases List.mem_append.mp hdapp with h | h
      · exact h
      · exact absurd h hddrop
    have hpw : List.Pairwise rowLe ((List.insertionSort rowLe st.rows).take
          (((st.rows.length : Int) - MAX_CACHE_ENTRIES).toNat)
        ++ (List.insertionSort rowLe st.rows).drop
          (((st.rows.length : Int) - MAX_CACHE_ENTRIES).toNat)) := by
      rw [List.take_append_drop]
      exact List.sorted_insertionSort rowLe st.rows
    exact (List.pairwise_append.mp hpw).2.2 d hdtake k hkdrop

/-- Claim C4: with more than the 50,000-entry ceiling of non-expired,
distinct-hash rows in the store, one further `set()` leaves the table at
exactly the ceiling (so at most the ceiling), and the rows deleted by the
size-based pruning step are exactly the excess-many entries that are
minimal in the ascending (`hit_count`, `created_at`) lexicographic order:
every deleted row compares `rowLe`-below every surviving row. -/
theorem c4_set_prunes_to_ceiling (st : NeutralizationCache) (c r : String)
    (t : List String) (sev now : Int)
    (hfr : ∀ x ∈ st.rows, now - CACHE_TTL_HOURS * 3600 ≤ x.created_at)
    (hnd : (st.rows.map (fun x => x.content_hash)).Nodup)
    (hlen : (st.rows.length : Int) > MAX_CACHE_ENTRIES) :
    ((NeutralizationCache.set st c r t sev now).rows.length : Int)
        = MAX_CACHE_ENTRIES ∧
    ∀ d ∈ st.rows.filter (fun x =>
          !(x.content_hash == NeutralizationCache.hash_content c))
        ++ [{ content_hash := NeutralizationCache.hash_content c, original := c,
              neutralized := r, techniques := t, severity := sev,
              created_at := now, hit_count := 0 }],
      d ∉ (NeutralizationCache.set st c r t sev now).rows →
      ∀ k ∈ (NeutralizationCache.set st c r t sev now).rows, rowLe d k := by
  have hfr1 : ∀ x ∈ st.rows.filter (fun x =>
        !(x.content_hash == NeutralizationCache.hash_content c))
      ++ [{ content_hash := NeutralizationCache.hash_content c, original := c,
            neutralized := r, techniques := t, severity := sev,
            created_at := now, hit_count := 0 }],
      now - CACHE_TTL_HOURS * 3600 ≤ x.created_at := by
    intro x hx
    rcases List.mem_append.mp hx with h | h
    · exact hfr x (List.mem_filter.mp h).1
    · rw [List.mem_singleton] at h
      subst h
      show now - CACHE_TTL_HOURS * 3600 ≤ now
      unfold CACHE_TTL_HOURS
      omega
  have hnd1 : (List.map (fun x : CachedNeutralization => x.content_hash)
      (st.rows.filter (fun x =>
        !(x.content_hash == NeutralizationCache.hash_content c))
      ++ [{ content_hash := NeutralizationCache.hash_content c, original := c,
            neutralized := r, techniques := t, severity := sev,
            created_at := now, hit_count := 0 }])).Nodup := by
    rw [List.map_append, List.nodup_append]
    refine ⟨?_, by simp, ?_⟩
    · exact List.Nodup.sublist (List.Sublist.map _ (List.filter_sublist _)) hnd
    · intro a ha hb
      simp only [List.map_cons, List.map_nil, List.mem_singleton] at hb
      obtain ⟨x, hxF, hxa⟩ := List.mem_map.mp ha
      have hxf := (List.mem_filter.mp hxF).2
      have hxc : x.content_hash = NeutralizationCache.hash_content c := by
        rw [hxa, hb]
      rw [hxc] at hxf
      simp at hxf
  have hlen1 : (((st.rows.filter (fun x : CachedNeutralization =>
        !(x.content_hash == NeutralizationCache.hash_content c))
      ++ [({ content_hash := NeutralizationCache.hash_content c, original := c,
             neutralized := r, techniques := t, severity := sev,
             created_at := now, hit_count := 0 } : CachedNeutralization)]).length : Int))
      > MAX_CACHE_ENTRIES := by
    rw [List.length_append]
    have h1 := length_le_filter_ne_hash_add_one st.rows
      (NeutralizationCache.hash_content c) hnd
    simp only [List.length_cons, List.length_nil]
    omega
  have hp := prune_spec
    { st with rows := st.rows.filter (fun x =>
        !(x.content_hash == NeutralizationCache.hash_content c))
      ++ [{ content_hash := NeutralizationCache.hash_content c, original := c,
            neutralized := r, techniques := t, severity := sev,
            created_at := now, hit_count := 0 }] } now hfr1 hnd1 hlen1
  exact hp

/-- Every sample row is stamped with `created_at = 0`. -/
theorem mkRows_created (n : Nat) : ∀ x ∈ mkRows n, x.created_at = 0 := by
  induction n with
  | zero => intro x hx; cases hx
  | succ m ih =>
    intro x hx
    rcases List.mem_cons.mp hx with h | h
    · subst h
      rfl
    · exact ih x h

theorem mkRows_length (n : Nat) : (mkRows n).length = n := by
  induction n with
  | zero => rfl
  | succ m ih => simp [mkRows, ih]

/-- The hash of a sample row in `mkRows n` has length below `n`. -/
theorem mkRows_hash_length (n : Nat) :
    ∀ x ∈ mkRows n, x.content_hash.length < n := by
  induction n with
  | zero => intro x hx; cases hx
  | succ m ih =>
    intro x hx
    rcases List.mem_cons.mp hx with h | h
    · subst h
      show (List.replicate m 'a').length < m + 1
      simp
    · exact Nat.lt_trans (ih x h) (Nat.lt_succ_self m)

theorem mkRows_hash_nodup (n : Nat) :
    ((mkRows n).map (fun x => x.content_hash)).Nodup := by
  induction n with
  | zero => simp [mkRows]
  | succ m ih =>
    rw [show mkRows (m + 1) = mkRow m :: mkRows m from rfl, List.map_cons,
      List.nodup_cons]
    refine ⟨?_, ih⟩
    intro hcon
    obtain ⟨x, hxm, hxe⟩ := List.mem_map.mp hcon
    have hlt := mkRows_hash_length m x hxm
    have hlen : (mkRow m).content_hash.length = m := by
      show (List.replicate m 'a').length = m
      simp
    rw [hxe, hlen] at hlt
    exact Nat.lt_irrefl m hlt

/-- Witness for C4 at a concrete 50,001-row store. -/
theorem c4_set_prunes_to_ceiling_witness :
    (∀ x ∈ bigStore.rows, (0 : Int) - CACHE_TTL_HOURS * 3600 ≤ x.created_at) ∧
    (bigStore.rows.map (fun x => x.content_hash)).Nodup ∧
    ((bigStore.rows.length : Int) > MAX_CACHE_ENTRIES) ∧
    ((NeutralizationCache.set bigStore "a" "b" [] 0 0).rows.length : Int)
        = MAX_CACHE_ENTRIES := by
  have hfr : ∀ x ∈ bigStore.rows, (0 : Int) - CACHE_TTL_HOURS * 3600 ≤ x.created_at := by
    intro x hx
    rw [mkRows_created 50001 x hx]
    unfold CACHE_TTL_HOURS
    omega
  have hnd : (bigStore.rows.map (fun x => x.content_hash)).Nodup :=
    mkRows_hash_nodup 50001
  have hlen : (bigStore.rows.length : Int) > MAX_CACHE_ENTRIES := by
    show (((mkRows 50001).length : Nat) : Int) > MAX_CACHE_ENTRIES
    rw [mkRows_length]
    unfold MAX_CACHE_ENTRIES
    omega
  exact ⟨hfr, hnd, hlen,
    (c4_set_prunes_to_ceiling bigStore "a" "b" [] 0 0 hfr hnd hlen).1⟩
